import Mathlib

/-!
Shallow embedding of the `magic-opener` core (src/parser.rs and src/repo.rs).

Strings are modelled as `List Char`.  All of the parser's tokens are ASCII, so
Rust's byte positions coincide with character positions wherever a match can
succeed (a byte prefix that cuts a multibyte character can never compare equal
to an ASCII token, and `str::get` returning `None` on a non-boundary likewise
yields a non-match); the character-level model below is therefore faithful.

`git` subprocess results are supplied by a `GitEnv` record: each field holds
the trimmed stdout (`Except.ok`) or the typed failure (`Except.error`) of the
corresponding `git` invocation, exactly as the `git` helper in repo.rs
produces them.
-/

/-! ## ASCII character predicates (char::is_ascii_* from Rust) -/

def isAsciiDigit (c : Char) : Bool := decide ('0' ≤ c ∧ c ≤ '9')

def isAsciiAlphanumeric (c : Char) : Bool :=
  decide ('0' ≤ c ∧ c ≤ '9') || decide ('a' ≤ c ∧ c ≤ 'z') || decide ('A' ≤ c ∧ c ≤ 'Z')

def isAsciiHexDigit (c : Char) : Bool :=
  isAsciiDigit c || decide ('a' ≤ c ∧ c ≤ 'f') || decide ('A' ≤ c ∧ c ≤ 'F')

/-- `char::to_ascii_lowercase`: shift ASCII uppercase down by 32. -/
def toAsciiLower (c : Char) : Char :=
  if 'A' ≤ c ∧ c ≤ 'Z' then Char.ofNat (c.toNat + 32) else c

/-- `str::eq_ignore_ascii_case`: equal length and pointwise ASCII-case-folded
equality. -/
def eqIgnoreAsciiCase (a b : List Char) : Bool :=
  decide (a.map toAsciiLower = b.map toAsciiLower)

/-! ## parser.rs: character classes and span primitives -/

def DOTGIT : List Char := ".git".toList

def SLASH : List Char := "/".toList

/-- `span`: maximal prefix whose characters satisfy `pred`, plus remainder
(Rust splits at the first non-matching character, i.e. takeWhile/dropWhile). -/
def span (pred : Char → Bool) (s : List Char) : List Char × List Char :=
  (s.takeWhile pred, s.dropWhile pred)

def is_org_char (c : Char) : Bool :=
  isAsciiAlphanumeric c || c == '-' || c == '_'

def is_name_char (c : Char) : Bool :=
  isAsciiAlphanumeric c || c == '-' || c == '_' || c == '.'

def is_userinfo_char (c : Char) : Bool :=
  -- the set "-._~!$&'()*+,;=%:" from parser.rs; code point 39 is the
  -- single-quote character, written numerically here
  isAsciiAlphanumeric c || "-._~!$&()*+,;=%:".toList.contains c || c == Char.ofNat 39

def is_hostname_char (c : Char) : Bool :=
  isAsciiAlphanumeric c || c == '-' || c == '.'

/-- `split_org`: leading run of org characters; rejected when empty or
case-insensitively equal to "none". -/
def split_org (s : List Char) : Option (List Char × List Char) :=
  let org := (span is_org_char s).1
  let rem := (span is_org_char s).2
  if org = [] ∨ eqIgnoreAsciiCase org ("none".toList) = true then none
  else some (org, rem)

/-- `split_name`: leading run of name characters, with a trailing
case-insensitive ".git" excluded from the name (the four suffix characters
stay in the remainder, via `s.split_at(i)` in the source); rejected when the
resulting name is empty, "." or "..". -/
def split_name (s : List Char) : Option (List Char × List Char) :=
  let name := (span is_name_char s).1
  let rem := (span is_name_char s).2
  let stripped : List Char × List Char :=
    if 4 ≤ name.length ∧ eqIgnoreAsciiCase (name.drop (name.length - 4)) DOTGIT = true then
      (s.take (name.length - 4), s.drop (name.length - 4))
    else (name, rem)
  if stripped.1 = [] ∨ stripped.1 = ['.'] ∨ stripped.1 = ['.', '.'] then none
  else some stripped

/-- `str::strip_prefix("/")` as used by `split_org_name`. -/
def strip_slash (s : List Char) : Option (List Char) :=
  if SLASH.isPrefixOf s then some (s.drop SLASH.length) else none

/-- `split_org_name`: `ORG/NAME` prefix. -/
def split_org_name (s : List Char) : Option (List Char × List Char × List Char) :=
  match split_org s with
  | none => none
  | some (org, s₁) =>
    match strip_slash s₁ with
    | none => none
    | some s₂ =>
      match split_name s₂ with
      | none => none
      | some (name, s₃) => some (org, name, s₃)

/-! ## parser.rs: tokens and the pull parser

The Rust `PullParser` mutates a `data` slice.  Each operation is modelled as
a function returning the success indicator together with the new `data`; a
failing operation returns the unchanged `data`, exactly as the Rust methods
leave `self.data` untouched on failure. -/

inductive Token where
  | literal (s : List Char)
  | caseFold (s : List Char)
deriving DecidableEq

/-- `PullParser::consume`.  `literal` is `strip_prefix`; `caseFold` compares
an identical-length leading slice ASCII-case-insensitively. -/
def consume (data : List Char) : Token → Option Unit × List Char
  | .literal s =>
    if s.isPrefixOf data then (some (), data.drop s.length) else (none, data)
  | .caseFold s =>
    if decide (s.length ≤ data.length) && eqIgnoreAsciiCase (data.take s.length) s then
      (some (), data.drop s.length)
    else (none, data)

def consume_seq_go (orig data : List Char) : List Token → Option Unit × List Char
  | [] => (some (), data)
  | t :: ts =>
    match consume data t with
    | (some _, d) => consume_seq_go orig d ts
    | (none, _) => (none, orig)

/-- `PullParser::consume_seq`: consume the tokens in order; on any failure the
cursor is restored to its position before the whole attempt. -/
def consume_seq (data : List Char) (ts : List Token) : Option Unit × List Char :=
  consume_seq_go data data ts

/-- `PullParser::maybe_consume`: attempt a token and discard the result. -/
def maybe_consume (data : List Char) (t : Token) : List Char :=
  (consume data t).2

/-- `str::split_once`: split at the first occurrence of `c`. -/
def splitOnce (c : Char) : List Char → Option (List Char × List Char)
  | [] => none
  | x :: xs =>
    if x = c then some ([], xs)
    else
      match splitOnce c xs with
      | some (pre, post) => some (x :: pre, post)
      | none => none

/-- `PullParser::maybe_consume_userinfo`: if the data contains an `@` and
every character before the first `@` is a valid userinfo character, drop
through the `@`. -/
def maybe_consume_userinfo (data : List Char) : List Char :=
  match splitOnce '@' data with
  | some (userinfo, s) => if userinfo.all is_userinfo_char then s else data
  | none => data

/-- `PullParser::get_org_name` (wraps `split_org_name`, advancing the data). -/
def get_org_name (data : List Char) : Option (List Char × List Char × List Char) :=
  split_org_name data

/-- `str::split('.')` for `is_valid_hostname`: split at every separator,
keeping empty pieces (so `""` yields one empty label). -/
def splitOnChar (sep : Char) : List Char → List (List Char)
  | [] => [[]]
  | c :: rest =>
    let r := splitOnChar sep rest
    if c = sep then [] :: r
    else (c :: r.headD []) :: r.tail

/-- `is_valid_hostname`: non-empty, at most 253 characters, and every
dot-separated label is non-empty, at most 63 characters, does not start or
end with a hyphen, and uses only ASCII alphanumerics and hyphens. -/
def is_valid_hostname (hostname : List Char) : Bool :=
  if hostname = [] ∨ 253 < hostname.length then false
  else
    (splitOnChar '.' hostname).all fun label =>
      !(decide (label = [] ∨ 63 < label.length)) &&
      !(label.head? == some '-') && !(label.getLast? == some '-') &&
      label.all fun c => isAsciiAlphanumeric c || c == '-'

/-- `PullParser::consume_host`: maximal hostname-character span, accepted only
when it validates. -/
def consume_host (data : List Char) : Option (List Char) × List Char :=
  let host := (span is_hostname_char data).1
  if is_valid_hostname host then (some host, (span is_hostname_char data).2)
  else (none, data)

/-! ## parser.rs: the state machine -/

/-- `State::End`: succeed only when the cursor is exhausted and both a host
and an org/name pair were captured. -/
def state_end (data : List Char) (host : Option (List Char))
    (result : Option (List Char × List Char)) :
    Option (List Char × List Char × List Char) :=
  if data = [] then
    match host, result with
    | some h, some (o, n) => some (h, o, n)
    | _, _ => none
  else none

/-- `State::OrgName` (also the tail of `State::Web` after its slash): capture
org/name, optionally a trailing ".git" and a trailing "/", then `End`. -/
def state_org_name (data : List Char) (host : Option (List Char)) :
    Option (List Char × List Char × List Char) :=
  match get_org_name data with
  | none => none
  | some (org, name, d₁) =>
    let d₂ := maybe_consume d₁ (Token.literal DOTGIT)
    let d₃ := maybe_consume d₂ (Token.literal SLASH)
    state_end d₃ host (some (org, name))

/-- `State::Http`: optional userinfo, hostname, then either the literal
"/repos/" or a single "/", continuing at `OrgName`. -/
def state_http (data : List Char) : Option (List Char × List Char × List Char) :=
  let d₀ := maybe_consume_userinfo data
  match consume_host d₀ with
  | (none, _) => none
  | (some h, d₁) =>
    match consume d₁ (Token.literal ("/repos/".toList)) with
    | (some _, d₂) => state_org_name d₂ (some h)
    | (none, d₁') =>
      match consume d₁' (Token.literal SLASH) with
      | (some _, d₂) => state_org_name d₂ (some h)
      | (none, _) => none

/-- `State::Web`: optional "www.", hostname, a "/", then org/name handling. -/
def state_web (data : List Char) : Option (List Char × List Char × List Char) :=
  let d₀ := maybe_consume data (Token.caseFold ("www.".toList))
  match consume_host d₀ with
  | (none, _) => none
  | (some h, d₁) =>
    match consume d₁ (Token.literal SLASH) with
    | (some _, d₂) => state_org_name d₂ (some h)
    | (none, _) => none

/-- Tail of `State::OrgNameGit` after its ":" or "/" separator: org/name, an
optional ".git" (no trailing-slash consumption here), then `End`. -/
def state_org_name_git_tail (data : List Char) (h : List Char) :
    Option (List Char × List Char × List Char) :=
  match get_org_name data with
  | none => none
  | some (org, name, d₃) =>
    state_end (maybe_consume d₃ (Token.literal DOTGIT)) (some h) (some (org, name))

/-- `State::OrgNameGit`: hostname, then ":" or "/" as separator (reject when
neither is present). -/
def state_org_name_git (data : List Char) : Option (List Char × List Char × List Char) :=
  match consume_host data with
  | (none, _) => none
  | (some h, d₁) =>
    match consume d₁ (Token.literal (":".toList)) with
    | (some _, d₂) => state_org_name_git_tail d₂ h
    | (none, d₁') =>
      match consume d₁' (Token.literal SLASH) with
      | (some _, d₂) => state_org_name_git_tail d₂ h
      | (none, _) => none

/-- The two states reachable from `START_PATTERNS` (the Rust table maps its
patterns only to `State::Http` and `State::OrgNameGit`). -/
inductive StartTarget where
  | http
  | orgNameGit
deriving DecidableEq

def START_PATTERNS : List (List Token × StartTarget) :=
  [([Token.caseFold ("https://".toList)], .http),
   ([Token.caseFold ("http://".toList)], .http),
   ([Token.caseFold ("git://".toList)], .orgNameGit),
   ([Token.literal ("git@".toList)], .orgNameGit),
   ([Token.caseFold ("ssh://".toList), Token.literal ("git@".toList)], .orgNameGit)]

/-- `parse_git_url`: try the start patterns in order (each attempt is atomic
via `consume_seq`); when none matches, fall back to `State::Web` on the
original input. -/
def parse_git_url (s : List Char) : Option (List Char × List Char × List Char) :=
  match START_PATTERNS.findSome? (fun pat =>
      match consume_seq s pat.1 with
      | (some _, d) => some (d, pat.2)
      | (none, _) => none) with
  | some (d, StartTarget.http) => state_http d
  | some (d, StartTarget.orgNameGit) => state_org_name_git d
  | none => state_web s

/-! ## repo.rs -/

/-- `RepositoryError`.  `CommandFailed` carries the exit status, modelled by
its `code()`: `some n` for exit code `n`, `none` for a signal death. -/
inductive RepositoryError where
  | Spec (s : List Char)
  | CommandFailed (status : Option Int)
  | NoSuchRemote (name : List Char)
  | InvalidUtf8
  | CouldNotExecute
deriving DecidableEq

deriving instance DecidableEq for Except

structure GitRepository where
  host : List Char
  org : List Char
  name : List Char
deriving DecidableEq

/-- Results of the `git` subprocess calls the resolver makes, each either the
trimmed stdout or the typed failure produced by the `git` helper in repo.rs.
The repository path recorded by `from_path` is always present in the resolver
flow, so the branch and log queries are reachable. -/
structure GitEnv where
  is_git : Bool
  remote_origin : Except RepositoryError (List Char)
  head_branch : Except RepositoryError (List Char)
  log_message : List Char → Except RepositoryError (List Char)

/-- `GitRepository::remote`: an exit code of 2 from `git remote get-url`
means "no such remote"; every other failure passes through unchanged. -/
def GitRepository.remote (remoteName : List Char)
    (res : Except RepositoryError (List Char)) : Except RepositoryError (List Char) :=
  match res with
  | .ok url => .ok url
  | .error (.CommandFailed r) =>
    if r = some 2 then .error (.NoSuchRemote remoteName)
    else .error (.CommandFailed r)
  | .error e => .error e

/-- `GitRepository::from_path`: fetch the `origin` remote URL and parse it. -/
def GitRepository.from_path (env : GitEnv) : Except RepositoryError GitRepository :=
  match GitRepository.remote ("origin".toList) env.remote_origin with
  | .error e => .error e
  | .ok url =>
    match parse_git_url url with
    | none => .error (.Spec url)
    | some (h, o, n) => .ok ⟨h, o, n⟩

/-- `GitRepository::current_branch`: symbolic HEAD short name, "main" when
the query fails. -/
def current_branch (env : GitEnv) : List Char :=
  match env.head_branch with
  | .ok b => b
  | .error _ => "main".toList

/-- The `url` local of `http_url`: `https://{host}/{org}/{name}`. -/
def GitRepository.web_url (r : GitRepository) : List Char :=
  "https://".toList ++ r.host ++ "/".toList ++ r.org ++ "/".toList ++ r.name

/-- `GitRepository::http_url`: branch-aware web URL. -/
def GitRepository.http_url (r : GitRepository) (env : GitEnv) : List Char :=
  let branch := current_branch env
  if branch = "develop".toList ∨ branch = "main".toList ∨ branch = "master".toList then
    r.web_url
  else r.web_url ++ "/tree/".toList ++ branch

def GitRepository.commit_url (r : GitRepository) (hash : List Char) : List Char :=
  r.web_url ++ "/commit/".toList ++ hash

def GitRepository.pr_url (r : GitRepository) (pr_number : List Char) : List Char :=
  r.web_url ++ "/pull/".toList ++ pr_number

/-- The message scan inside `GitRepository::pr_for_commit`: find the first
`#` in the message, collect the ASCII digits immediately after it, and
succeed only when that digit run is non-empty. -/
def pr_scan (message : List Char) : Option (List Char) :=
  match splitOnce '#' message with
  | some (_, after) =>
    let pr_number := after.takeWhile isAsciiDigit
    if pr_number = [] then none else some pr_number
  | none => none

/-- `GitRepository::pr_for_commit`: run `git log -1 --pretty=%B {hash}` and
scan the message; any command failure yields `none`. -/
def pr_for_commit (env : GitEnv) (hash : List Char) : Option (List Char) :=
  match env.log_message hash with
  | .ok message => pr_scan message
  | .error _ => none

def is_valid_commit_hash (hash : List Char) : Bool :=
  decide (7 ≤ hash.length) && decide (hash.length ≤ 40) && hash.all isAsciiHexDigit

def is_pr_number (s : List Char) : Bool :=
  !(s == []) && s.all isAsciiDigit

/-- `GitRepository::url`: the resolution entry point. -/
def GitRepository.url (env : GitEnv) (current_dir : List Char)
    (paths : List (List Char)) : Except RepositoryError (List Char) :=
  let joined := List.intercalate (" ".toList) paths
  let join_paths := if joined = ".".toList then current_dir else joined
  if !env.is_git then .ok join_paths
  else
    match GitRepository.from_path env with
    | .error e => .error e
    | .ok r =>
      match paths with
      | [] => .ok (r.http_url env)
      | [arg] =>
        if is_valid_commit_hash arg || is_pr_number arg then
          if is_valid_commit_hash arg then
            match pr_for_commit env arg with
            | some pr_number => .ok (r.pr_url pr_number)
            | none => .ok (r.commit_url arg)
          else .ok (r.pr_url arg)
        else .ok join_paths
      | _ => .ok join_paths

/-- Reference reading of the spec's pull-request scan, for comparison with
`pr_scan`: the first occurrence, anywhere in the message, of a `#` followed
immediately by at least one ASCII digit. -/
def spec_pr_reference : List Char → Option (List Char)
  | [] => none
  | '#' :: rest =>
    let d := rest.takeWhile isAsciiDigit
    if d = [] then spec_pr_reference rest else some d
  | _ :: rest => spec_pr_reference rest

/-! ## Specification-side definitions used by the theorems -/

/-- Facts `split_org` establishes about the organization it returns. -/
abbrev OrgOk (o : List Char) : Prop :=
  o ≠ [] ∧ o.all is_org_char = true ∧ eqIgnoreAsciiCase o ("none".toList) = false

/-- Facts `split_name` establishes about the name it returns. -/
abbrev NameOk (n : List Char) : Prop :=
  n ≠ [] ∧ n.all is_name_char = true ∧ n ≠ ['.'] ∧ n ≠ ['.', '.']

/-- Facts `consume_host` establishes about the host it returns. -/
abbrev HostOk (h : List Char) : Prop :=
  is_valid_hostname h = true ∧ h.all is_hostname_char = true

/-- Sequential consumption of every token in order, as a specification for
the success case of `consume_seq`. -/
def consume_all (data : List Char) : List Token → Option (List Char)
  | [] => some data
  | t :: ts =>
    match consume data t with
    | (some _, d) => consume_all d ts
    | (none, _) => none

/-! ## Concrete environments for evaluating the resolver -/

/-- A Git repository whose `origin` remote is `https://github.com/org/repo`
and whose latest commit message mentions `#abc` before `#42`. -/
def env_c2 : GitEnv where
  is_git := true
  remote_origin := .ok ("https://github.com/org/repo".toList)
  head_branch := .ok ("main".toList)
  log_message := fun _ => .ok ("Update #abc and #42".toList)

/-- A working directory that is not inside a Git repository. -/
def env_no_git : GitEnv where
  is_git := false
  remote_origin := .error .CouldNotExecute
  head_branch := .error .CouldNotExecute
  log_message := fun _ => .error .CouldNotExecute

/-- A Git repository with an SSH-style remote and a PR reference in its
latest commit message. -/
def env_c5 : GitEnv where
  is_git := true
  remote_origin := .ok ("git@github.com:acme/widgets.git".toList)
  head_branch := .ok ("feature-x".toList)
  log_message := fun _ => .ok ("Fixes #42".toList)

/-- A Git repository whose branch query fails (detached HEAD). -/
def env_c6 : GitEnv where
  is_git := true
  remote_origin := .ok ("https://github.com/acme/widgets".toList)
  head_branch := .error (.CommandFailed (some 1))
  log_message := fun _ => .error .CouldNotExecute

/-! ## Helper lemmas about the list primitives -/

lemma takeWhile_append_of_all {p : Char → Bool} {a : List Char} (l : List Char)
    (ha : a.all p = true) : (a ++ l).takeWhile p = a ++ l.takeWhile p := by
  induction a with
  | nil => simp
  | cons x xs ih =>
    simp only [List.all_cons, Bool.and_eq_true] at ha
    simp [List.takeWhile_cons_of_pos ha.1, ih ha.2]

lemma dropWhile_append_of_all {p : Char → Bool} {a : List Char} (l : List Char)
    (ha : a.all p = true) : (a ++ l).dropWhile p = l.dropWhile p := by
  induction a with
  | nil => simp
  | cons x xs ih =>
    simp only [List.all_cons, Bool.and_eq_true] at ha
    simp [List.dropWhile_cons_of_pos ha.1, ih ha.2]

lemma takeWhile_eq_self_of_all {p : Char → Bool} {a : List Char}
    (ha : a.all p = true) : a.takeWhile p = a := by
  have := takeWhile_append_of_all (p := p) [] ha
  simpa using this

lemma dropWhile_eq_nil_of_all {p : Char → Bool} {a : List Char}
    (ha : a.all p = true) : a.dropWhile p = [] := by
  have := dropWhile_append_of_all (p := p) [] ha
  simpa using this

lemma pred_char_ne {p : Char → Bool} {l : List Char} (hl : l.all p = true)
    {c : Char} (hc : p c = false) : ∀ x ∈ l, x ≠ c := by
  intro x hx he
  subst he
  rw [List.all_eq_true] at hl
  rw [hl x hx] at hc
  cases hc

lemma eqIgnoreAsciiCase_refl (a : List Char) : eqIgnoreAsciiCase a a = true := by
  simp [eqIgnoreAsciiCase]

lemma consume_literal_self (s rest : List Char) :
    consume (s ++ rest) (Token.literal s) = (some (), rest) := by
  have hpre : s.isPrefixOf (s ++ rest) = true :=
    List.isPrefixOf_iff_prefix.mpr (List.prefix_append s rest)
  simp [consume, hpre, List.drop_left]

lemma consume_caseFold_self (s rest : List Char) :
    consume (s ++ rest) (Token.caseFold s) = (some (), rest) := by
  have hlen : s.length ≤ (s ++ rest).length := by simp
  simp [consume, hlen, List.take_left, List.drop_left, eqIgnoreAsciiCase_refl]

lemma splitOnce_eq_none {c : Char} {l : List Char} (h : ∀ x ∈ l, x ≠ c) :
    splitOnce c l = none := by
  induction l with
  | nil => rfl
  | cons x xs ih =>
    have hx : x ≠ c := h x (by simp)
    have hxs : ∀ y ∈ xs, y ≠ c := fun y hy => h y (by simp [hy])
    simp [splitOnce, hx, ih hxs]

lemma splitOnce_first {c : Char} {pre post : List Char} (h : ∀ x ∈ pre, x ≠ c) :
    splitOnce c (pre ++ c :: post) = some (pre, post) := by
  induction pre with
  | nil => simp [splitOnce]
  | cons x xs ih =>
    have hx : x ≠ c := h x (by simp)
    have hxs : ∀ y ∈ xs, y ≠ c := fun y hy => h y (by simp [hy])
    simp [splitOnce, hx, ih hxs]

lemma append_slash_prefix_unique {w o tail : List Char}
    (hw : ∀ c ∈ w, c ≠ '/') (ho : ∀ c ∈ o, c ≠ '/')
    (hpre : (w ++ ['/']) <+: (o ++ '/' :: tail)) : w = o := by
  induction w generalizing o with
  | nil =>
    cases o with
    | nil => rfl
    | cons b bs =>
      simp only [List.nil_append, List.cons_append, List.cons_prefix_cons] at hpre
      exact absurd hpre.1.symm (ho b (by simp))
  | cons a as ih =>
    cases o with
    | nil =>
      simp only [List.cons_append, List.nil_append, List.cons_prefix_cons] at hpre
      exact absurd hpre.1 (hw a (by simp))
    | cons b bs =>
      simp only [List.cons_append, List.cons_prefix_cons] at hpre
      have hw' : ∀ c ∈ as, c ≠ '/' := fun c hc => hw c (by simp [hc])
      have ho' : ∀ c ∈ bs, c ≠ '/' := fun c hc => ho c (by simp [hc])
      rw [hpre.1, ih hw' ho' hpre.2]

/-! ## Inversion lemmas: what a successful parse guarantees -/

lemma split_org_inv {s o rem : List Char} (h : split_org s = some (o, rem)) :
    OrgOk o ∧ o = s.takeWhile is_org_char ∧ rem = s.dropWhile is_org_char := by
  simp only [split_org, span] at h
  split at h
  · exact absurd h (by simp)
  · rename_i hcond
    push_neg at hcond
    simp only [Option.some.injEq, Prod.mk.injEq] at h
    obtain ⟨rfl, rfl⟩ := h
    refine ⟨⟨hcond.1, List.all_takeWhile .., ?_⟩, rfl, rfl⟩
    simpa using hcond.2

lemma take_of_pre {l₁ l₂ : List Char} {k : ℕ} (h : l₁ <+: l₂)
    (hk : k ≤ l₁.length) : l₂.take k = l₁.take k := by
  obtain ⟨t, rfl⟩ := h
  induction l₁ generalizing k with
  | nil => simp_all
  | cons x xs ih =>
    cases k with
    | zero => simp
    | succ m =>
      simp only [List.cons_append, List.take_succ_cons]
      rw [ih (Nat.le_of_succ_le_succ hk)]

lemma split_name_inv {s n rem : List Char} (h : split_name s = some (n, rem)) :
    NameOk n := by
  simp only [split_name, span] at h
  by_cases hgit : 4 ≤ (s.takeWhile is_name_char).length ∧
      eqIgnoreAsciiCase ((s.takeWhile is_name_char).drop
        ((s.takeWhile is_name_char).length - 4)) DOTGIT = true
  · rw [if_pos hgit] at h
    split at h
    · exact Option.noConfusion h
    · rename_i hcond
      push_neg at hcond
      simp only [Option.some.injEq, Prod.mk.injEq] at h
      obtain ⟨rfl, rfl⟩ := h
      refine ⟨hcond.1, ?_, hcond.2.1, hcond.2.2⟩
      -- the returned name is a prefix of the maximal name-character span
      have hspan : s.takeWhile is_name_char <+: s := List.takeWhile_prefix _
      have heq : s.take ((s.takeWhile is_name_char).length - 4) =
          (s.takeWhile is_name_char).take ((s.takeWhile is_name_char).length - 4) :=
        take_of_pre hspan (Nat.sub_le _ _)
      have htk : (s.takeWhile is_name_char).take
            ((s.takeWhile is_name_char).length - 4) <+: s.takeWhile is_name_char :=
        List.take_prefix _ _
      rw [List.all_eq_true]
      intro x hx
      rw [heq] at hx
      exact List.all_eq_true.mp (List.all_takeWhile ..) x (htk.subset hx)
  · rw [if_neg hgit] at h
    split at h
    · exact Option.noConfusion h
    · rename_i hcond
      push_neg at hcond
      simp only [Option.some.injEq, Prod.mk.injEq] at h
      obtain ⟨rfl, rfl⟩ := h
      exact ⟨hcond.1, List.all_takeWhile .., hcond.2.1, hcond.2.2⟩

lemma split_org_name_inv {s o n rem : List Char}
    (h : split_org_name s = some (o, n, rem)) : OrgOk o ∧ NameOk n := by
  unfold split_org_name at h
  split at h
  · exact Option.noConfusion h
  · rename_i o' s₁ ho
    split at h
    · exact Option.noConfusion h
    · rename_i s₂ hs₂
      split at h
      · exact Option.noConfusion h
      · rename_i n' s₃ hn
        simp only [Option.some.injEq, Prod.mk.injEq] at h
        obtain ⟨rfl, rfl, rfl⟩ := h
        exact ⟨(split_org_inv ho).1, split_name_inv hn⟩

lemma consume_host_inv {d h d₂ : List Char}
    (hc : consume_host d = (some h, d₂)) :
    HostOk h ∧ h = d.takeWhile is_hostname_char ∧ d₂ = d.dropWhile is_hostname_char := by
  simp only [consume_host, span] at hc
  split at hc
  · rename_i hv
    simp only [Prod.mk.injEq, Option.some.injEq] at hc
    obtain ⟨rfl, rfl⟩ := hc
    exact ⟨⟨hv, List.all_takeWhile ..⟩, rfl, rfl⟩
  · simp only [Prod.mk.injEq] at hc
    exact Option.noConfusion hc.1

lemma state_end_inv {d : List Char} {host : Option (List Char)}
    {result : Option (List Char × List Char)} {h o n : List Char}
    (he : state_end d host result = some (h, o, n)) :
    d = [] ∧ host = some h ∧ result = some (o, n) := by
  unfold state_end at he
  split at he
  · rename_i hd
    subst hd
    refine ⟨rfl, ?_⟩
    split at he
    · rename_i h' o' n'
      simp only [Option.some.injEq, Prod.mk.injEq] at he
      obtain ⟨rfl, rfl, rfl⟩ := he
      exact ⟨rfl, rfl⟩
    · exact Option.noConfusion he
  · exact Option.noConfusion he

lemma state_org_name_inv {d : List Char} {host : Option (List Char)} {h o n : List Char}
    (hs : state_org_name d host = some (h, o, n)) :
    host = some h ∧ OrgOk o ∧ NameOk n := by
  unfold state_org_name at hs
  split at hs
  · exact Option.noConfusion hs
  · rename_i o' n' d₁ hg
    obtain ⟨-, hhost, hres⟩ := state_end_inv hs
    simp only [Option.some.injEq, Prod.mk.injEq] at hres
    obtain ⟨rfl, rfl⟩ := hres
    exact ⟨hhost, (split_org_name_inv hg).1, (split_org_name_inv hg).2⟩

lemma state_http_inv {d h o n : List Char} (hs : state_http d = some (h, o, n)) :
    HostOk h ∧ OrgOk o ∧ NameOk n := by
  simp only [state_http] at hs
  split at hs
  · exact Option.noConfusion hs
  · rename_i h' d₁ hc
    have hhost := (consume_host_inv hc).1
    split at hs
    · obtain ⟨heq, ho, hn⟩ := state_org_name_inv hs
      injection heq with heq
      subst heq
      exact ⟨hhost, ho, hn⟩
    · split at hs
      · obtain ⟨heq, ho, hn⟩ := state_org_name_inv hs
        injection heq with heq
        subst heq
        exact ⟨hhost, ho, hn⟩
      · exact Option.noConfusion hs

lemma state_web_inv {d h o n : List Char} (hs : state_web d = some (h, o, n)) :
    HostOk h ∧ OrgOk o ∧ NameOk n := by
  simp only [state_web] at hs
  split at hs
  · exact Option.noConfusion hs
  · rename_i h' d₁ hc
    have hhost := (consume_host_inv hc).1
    split at hs
    · obtain ⟨heq, ho, hn⟩ := state_org_name_inv hs
      injection heq with heq
      subst heq
      exact ⟨hhost, ho, hn⟩
    · exact Option.noConfusion hs

lemma state_org_name_git_tail_inv {d hh h o n : List Char}
    (hs : state_org_name_git_tail d hh = some (h, o, n)) :
    hh = h ∧ OrgOk o ∧ NameOk n := by
  unfold state_org_name_git_tail at hs
  split at hs
  · exact Option.noConfusion hs
  · rename_i o' n' d₃ hg
    obtain ⟨-, hhost, hres⟩ := state_end_inv hs
    injection hhost with hhost
    simp only [Option.some.injEq, Prod.mk.injEq] at hres
    obtain ⟨rfl, rfl⟩ := hres
    exact ⟨hhost, (split_org_name_inv hg).1, (split_org_name_inv hg).2⟩

lemma state_org_name_git_inv {d h o n : List Char}
    (hs : state_org_name_git d = some (h, o, n)) :
    HostOk h ∧ OrgOk o ∧ NameOk n := by
  unfold state_org_name_git at hs
  split at hs
  · exact Option.noConfusion hs
  · rename_i h' d₁ hc
    have hhost := (consume_host_inv hc).1
    split at hs
    · obtain ⟨heq, ho, hn⟩ := state_org_name_git_tail_inv hs
      subst heq
      exact ⟨hhost, ho, hn⟩
    · split at hs
      · obtain ⟨heq, ho, hn⟩ := state_org_name_git_tail_inv hs
        subst heq
        exact ⟨hhost, ho, hn⟩
      · exact Option.noConfusion hs

lemma parse_git_url_inv {s h o n : List Char}
    (hp : parse_git_url s = some (h, o, n)) :
    HostOk h ∧ OrgOk o ∧ NameOk n := by
  unfold parse_git_url at hp
  split at hp
  · exact state_http_inv hp
  · exact state_org_name_git_inv hp
  · exact state_web_inv hp

/-! ## Forward computation: parsing the rebuilt web URL -/

lemma parse_https (rest : List Char) :
    parse_git_url ("https://".toList ++ rest) = state_http rest := by
  have h1 : consume_seq ("https://".toList ++ rest) [Token.caseFold ("https://".toList)] =
      (some (), rest) := by
    have hc := consume_caseFold_self ("https://".toList) rest
    simp only [consume_seq, consume_seq_go, hc]
  simp only [parse_git_url, START_PATTERNS, List.findSome?_cons, h1]

lemma state_http_rebuilt {h o n : List Char}
    (hh : HostOk h) (ho : OrgOk o) (hn : NameOk n)
    (hrepos : o ≠ "repos".toList)
    (hgit : ¬(4 ≤ n.length ∧ eqIgnoreAsciiCase (n.drop (n.length - 4)) DOTGIT = true)) :
    state_http (h ++ '/' :: (o ++ '/' :: n)) = some (h, o, n) := by
  obtain ⟨hvalid, hchars⟩ := hh
  obtain ⟨honempty, hochars, hnone⟩ := ho
  obtain ⟨hnnempty, hnchars, hdot1, hdot2⟩ := hn
  -- no '@' occurs, so the userinfo step is the identity
  have hat : ∀ x ∈ h ++ '/' :: (o ++ '/' :: n), x ≠ '@' := by
    intro x hx
    rcases List.mem_append.mp hx with hx | hx
    · exact pred_char_ne hchars (by decide) x hx
    · rcases List.mem_cons.mp hx with rfl | hx
      · decide
      · rcases List.mem_append.mp hx with hx | hx
        · exact pred_char_ne hochars (by decide) x hx
        · rcases List.mem_cons.mp hx with rfl | hx
          · decide
          · exact pred_char_ne hnchars (by decide) x hx
  have hui : maybe_consume_userinfo (h ++ '/' :: (o ++ '/' :: n)) =
      h ++ '/' :: (o ++ '/' :: n) := by
    simp [maybe_consume_userinfo, splitOnce_eq_none hat]
  -- the hostname span recovers exactly h
  have htake : (h ++ '/' :: (o ++ '/' :: n)).takeWhile is_hostname_char = h := by
    rw [takeWhile_append_of_all _ hchars,
      List.takeWhile_cons_of_neg (by decide : ¬is_hostname_char '/' = true)]
    simp
  have hdrop : (h ++ '/' :: (o ++ '/' :: n)).dropWhile is_hostname_char =
      '/' :: (o ++ '/' :: n) := by
    rw [dropWhile_append_of_all _ hchars,
      List.dropWhile_cons_of_neg (by decide : ¬is_hostname_char '/' = true)]
  have hch : consume_host (h ++ '/' :: (o ++ '/' :: n)) = (some h, '/' :: (o ++ '/' :: n)) := by
    simp [consume_host, span, htake, hdrop, hvalid]
  -- the "/repos/" literal does not match because o is not "repos"
  have hrep : consume ('/' :: (o ++ '/' :: n)) (Token.literal ("/repos/".toList)) =
      (none, '/' :: (o ++ '/' :: n)) := by
    have hw : ∀ c ∈ ("repos".toList : List Char), c ≠ '/' := by decide
    have ho' : ∀ c ∈ o, c ≠ '/' := pred_char_ne hochars (by decide)
    have hnp : ¬(("repos".toList ++ ['/']) <+: (o ++ '/' :: n)) :=
      fun hpre => hrepos (append_slash_prefix_unique hw ho' hpre).symm
    have hnp' : ¬((['r', 'e', 'p', 'o', 's', '/'] : List Char) <+: (o ++ '/' :: n)) := by
      simpa using hnp
    simp [consume, hnp']
  -- the single "/" matches
  have hsl : consume ('/' :: (o ++ '/' :: n)) (Token.literal SLASH) = (some (), o ++ '/' :: n) := by
    have := consume_literal_self SLASH (o ++ '/' :: n)
    simpa [SLASH] using this
  -- org extraction recovers exactly o
  have hsorg : split_org (o ++ '/' :: n) = some (o, '/' :: n) := by
    have ht : (o ++ '/' :: n).takeWhile is_org_char = o := by
      rw [takeWhile_append_of_all _ hochars,
        List.takeWhile_cons_of_neg (by decide : ¬is_org_char '/' = true)]
      simp
    have hd : (o ++ '/' :: n).dropWhile is_org_char = '/' :: n := by
      rw [dropWhile_append_of_all _ hochars,
        List.dropWhile_cons_of_neg (by decide : ¬is_org_char '/' = true)]
    have hnone' : eqIgnoreAsciiCase o ['n', 'o', 'n', 'e'] = false := by
      simpa using hnone
    simp [split_org, span, ht, hd, honempty, hnone, hnone']
  have hss : strip_slash ('/' :: n) = some n := by
    simp [strip_slash, SLASH, List.isPrefixOf]
  -- name extraction recovers exactly n (no ".git" stripping by hypothesis)
  have hsn : split_name n = some (n, []) := by
    have ht : n.takeWhile is_name_char = n := takeWhile_eq_self_of_all hnchars
    have hd : n.dropWhile is_name_char = [] := dropWhile_eq_nil_of_all hnchars
    simp only [split_name, span, ht, hd]
    rw [if_neg hgit, if_neg (by simp [hnnempty, hdot1, hdot2])]
  simp only [state_http, hui, hch, hrep, hsl, state_org_name, get_org_name,
    split_org_name, hsorg, hss, hsn]
  rfl

/-! ## Atomicity of consume_seq -/

lemma consume_none_frame {data : List Char} {t : Token}
    (h : (consume data t).1 = none) : (consume data t).2 = data := by
  cases t with
  | literal s =>
    by_cases hp : s.isPrefixOf data = true
    · simp [consume, hp] at h
    · simp [consume, hp]
  | caseFold s =>
    by_cases hp : (decide (s.length ≤ data.length) &&
        eqIgnoreAsciiCase (data.take s.length) s) = true
    · simp [consume, hp] at h
    · simp only [consume, Bool.not_eq_true] at hp ⊢
      rw [hp]
      simp

lemma consume_seq_go_none {orig : List Char} {ts : List Token} :
    ∀ {data : List Char}, (consume_seq_go orig data ts).1 = none →
      (consume_seq_go orig data ts).2 = orig := by
  induction ts with
  | nil => intro data h; exact Option.noConfusion h
  | cons t ts ih =>
    intro data h
    simp only [consume_seq_go] at h ⊢
    split at h
    · exact ih h
    · rfl

lemma consume_seq_go_some {orig : List Char} {ts : List Token} :
    ∀ {data : List Char}, (consume_seq_go orig data ts).1 = some () →
      consume_all data ts = some (consume_seq_go orig data ts).2 := by
  induction ts with
  | nil => intro data _; rfl
  | cons t ts ih =>
    intro data h
    simp only [consume_seq_go, consume_all] at h ⊢
    split at h
    · exact ih h
    · exact Option.noConfusion h

/-! ## The first-hash scan of pr_scan -/

lemma pr_scan_of_no_hash {msg : List Char} (h : ∀ x ∈ msg, x ≠ '#') :
    pr_scan msg = none := by
  simp [pr_scan, splitOnce_eq_none h]

lemma pr_scan_of_first_hash {pre rest : List Char} (h : ∀ x ∈ pre, x ≠ '#') :
    pr_scan (pre ++ '#' :: rest) =
      (if rest.takeWhile isAsciiDigit = [] then none
       else some (rest.takeWhile isAsciiDigit)) := by
  simp [pr_scan, splitOnce_first h]

/-! ## Per-label reading of the hostname validator -/

lemma label_ok_iff (label : List Char) :
    (!(decide (label = [] ∨ 63 < label.length)) && !(label.head? == some '-') &&
      !(label.getLast? == some '-') &&
      label.all (fun c => isAsciiAlphanumeric c || c == '-')) = true ↔
    (label ≠ [] ∧ label.length ≤ 63 ∧ label.head? ≠ some '-' ∧
      label.getLast? ≠ some '-' ∧
      ∀ c ∈ label, isAsciiAlphanumeric c = true ∨ c = '-') := by
  simp only [Bool.and_eq_true, Bool.not_eq_true', decide_eq_false_iff_not, not_or,
    Nat.not_lt, beq_eq_false_iff_ne, ne_eq, List.all_eq_true, Bool.or_eq_true,
    beq_iff_eq]
  tauto

/-! ## The ".git" suffix handling of the name, in general -/

lemma consume_repos_of_ne {o rest : List Char} (hochars : o.all is_org_char = true)
    (hrepos : o ≠ "repos".toList) :
    consume ('/' :: (o ++ '/' :: rest)) (Token.literal ("/repos/".toList)) =
      (none, '/' :: (o ++ '/' :: rest)) := by
  have hw : ∀ c ∈ ("repos".toList : List Char), c ≠ '/' := by decide
  have ho' : ∀ c ∈ o, c ≠ '/' := pred_char_ne hochars (by decide)
  have hnp : ¬(("repos".toList ++ ['/']) <+: (o ++ '/' :: rest)) :=
    fun hpre => hrepos (append_slash_prefix_unique hw ho' hpre).symm
  have hnp' : ¬((['r', 'e', 'p', 'o', 's', '/'] : List Char) <+: (o ++ '/' :: rest)) := by
    simpa using hnp
  simp [consume, hnp']

lemma consume_repos_self (w : List Char) :
    consume ('/' :: ("repos".toList ++ '/' :: w)) (Token.literal ("/repos/".toList)) =
      (some (), w) := by
  have hlit : ('/' :: ("repos".toList ++ '/' :: w) : List Char) = "/repos/".toList ++ w := by
    have h7 : ("/repos/".toList : List Char) = '/' :: ("repos".toList ++ ['/']) := by
      decide
    rw [h7]
    simp
  rw [hlit]
  exact consume_literal_self _ _

lemma strip_slash_cons (x : List Char) : strip_slash ('/' :: x) = some x := by
  simp [strip_slash, SLASH, List.isPrefixOf]

lemma split_org_on_span {o rest : List Char} (ho : OrgOk o) :
    split_org (o ++ '/' :: rest) = some (o, '/' :: rest) := by
  obtain ⟨hone, hochars, hnone⟩ := ho
  have ht : (o ++ '/' :: rest).takeWhile is_org_char = o := by
    rw [takeWhile_append_of_all _ hochars,
      List.takeWhile_cons_of_neg (by decide : ¬is_org_char '/' = true)]
    simp
  have hd : (o ++ '/' :: rest).dropWhile is_org_char = '/' :: rest := by
    rw [dropWhile_append_of_all _ hochars,
      List.dropWhile_cons_of_neg (by decide : ¬is_org_char '/' = true)]
  have hnone' : eqIgnoreAsciiCase o ['n', 'o', 'n', 'e'] = false := by
    simpa using hnone
  simp [split_org, span, ht, hd, hone, hnone, hnone']

lemma split_org_name_no_slash {w : List Char} (hw : ∀ c ∈ w, c ≠ '/') :
    split_org_name w = none := by
  unfold split_org_name
  cases hso : split_org w with
  | none => rfl
  | some p =>
    obtain ⟨org₁, rem₁⟩ := p
    have hrem : rem₁ = w.dropWhile is_org_char := (split_org_inv hso).2.2
    have hss : strip_slash rem₁ = none := by
      cases hr : rem₁ with
      | nil => rfl
      | cons c cs =>
        have hcw : c ∈ w := by
          have hsub : w.dropWhile is_org_char <:+ w := List.dropWhile_suffix _
          exact hsub.subset (by rw [← hrem, hr]; simp)
        have hcne : ¬('/' == c) = true := by
          simpa using (hw c hcw).symm
        simp [strip_slash, SLASH, List.isPrefixOf, hcne]
    simp [hss]

lemma userinfo_skip_rebuilt {h o w : List Char} (hchars : h.all is_hostname_char = true)
    (hochars : o.all is_org_char = true) (hw : w.all is_name_char = true) :
    maybe_consume_userinfo (h ++ '/' :: (o ++ '/' :: w)) = h ++ '/' :: (o ++ '/' :: w) := by
  have hat : ∀ x ∈ h ++ '/' :: (o ++ '/' :: w), x ≠ '@' := by
    intro x hx
    rcases List.mem_append.mp hx with hx | hx
    · exact pred_char_ne hchars (by decide) x hx
    · rcases List.mem_cons.mp hx with rfl | hx
      · decide
      · rcases List.mem_append.mp hx with hx | hx
        · exact pred_char_ne hochars (by decide) x hx
        · rcases List.mem_cons.mp hx with rfl | hx
          · decide
          · exact pred_char_ne hw (by decide) x hx
  simp [maybe_consume_userinfo, splitOnce_eq_none hat]

lemma consume_host_slash {h rest : List Char} (hh : HostOk h) :
    consume_host (h ++ '/' :: rest) = (some h, '/' :: rest) := by
  obtain ⟨hvalid, hchars⟩ := hh
  have ht : (h ++ '/' :: rest).takeWhile is_hostname_char = h := by
    rw [takeWhile_append_of_all _ hchars,
      List.takeWhile_cons_of_neg (by decide : ¬is_hostname_char '/' = true)]
    simp
  have hd : (h ++ '/' :: rest).dropWhile is_hostname_char = '/' :: rest := by
    rw [dropWhile_append_of_all _ hchars,
      List.dropWhile_cons_of_neg (by decide : ¬is_hostname_char '/' = true)]
  simp [consume_host, span, ht, hd, hvalid]

lemma state_http_front {h o w : List Char} (hh : HostOk h)
    (hochars : o.all is_org_char = true) (hw : w.all is_name_char = true) :
    state_http (h ++ '/' :: (o ++ '/' :: w)) =
      (match consume ('/' :: (o ++ '/' :: w)) (Token.literal ("/repos/".toList)) with
       | (some _, d₂) => state_org_name d₂ (some h)
       | (none, d₁') =>
         match consume d₁' (Token.literal SLASH) with
         | (some _, d₂) => state_org_name d₂ (some h)
         | (none, _) => none) := by
  simp only [state_http, userinfo_skip_rebuilt hh.2 hochars hw, consume_host_slash hh]

lemma state_org_name_on_span {o w : List Char} (h : List Char) (ho : OrgOk o) :
    state_org_name (o ++ '/' :: w) (some h) =
      (match split_name w with
       | none => none
       | some (name, d₁) =>
         state_end
           (maybe_consume (maybe_consume d₁ (Token.literal DOTGIT)) (Token.literal SLASH))
           (some h) (some (o, name))) := by
  cases hsn : split_name w with
  | none =>
    simp [state_org_name, get_org_name, split_org_name, split_org_on_span ho,
      strip_slash_cons, hsn]
  | some p =>
    obtain ⟨name, d₁⟩ := p
    simp [state_org_name, get_org_name, split_org_name, split_org_on_span ho,
      strip_slash_cons, hsn]

lemma split_name_exact {stem : List Char} (hn : NameOk stem) :
    split_name (stem ++ DOTGIT) = some (stem, DOTGIT) := by
  obtain ⟨hne, hall, hd1, hd2⟩ := hn
  have hgall : (stem ++ DOTGIT).all is_name_char = true := by
    simp [List.all_append, hall, (by decide : DOTGIT.all is_name_char = true)]
  have htake2 : (stem ++ DOTGIT).take stem.length = stem := List.take_left _ _
  have hdrop2 : (stem ++ DOTGIT).drop stem.length = DOTGIT := List.drop_left _ _
  have hL : (stem ++ DOTGIT).length = stem.length + 4 := by simp [DOTGIT]
  have hL4 : (stem ++ DOTGIT).length - 4 = stem.length := by omega
  have hcond : 4 ≤ (stem ++ DOTGIT).length ∧
      eqIgnoreAsciiCase ((stem ++ DOTGIT).drop ((stem ++ DOTGIT).length - 4)) DOTGIT =
        true := by
    refine ⟨by omega, ?_⟩
    rw [hL4, hdrop2]
    exact eqIgnoreAsciiCase_refl DOTGIT
  simp only [split_name, span, takeWhile_eq_self_of_all hgall,
    dropWhile_eq_nil_of_all hgall]
  rw [if_pos hcond, hL4, htake2, hdrop2]
  rw [if_neg (by simp [hne, hd1, hd2])]

lemma split_name_ci_cases {w : List Char} (hw : w.all is_name_char = true)
    (h4 : 4 ≤ w.length)
    (hci : eqIgnoreAsciiCase (w.drop (w.length - 4)) DOTGIT = true) :
    split_name w = none ∨
      split_name w = some (w.take (w.length - 4), w.drop (w.length - 4)) := by
  have hcond : 4 ≤ w.length ∧
      eqIgnoreAsciiCase (w.drop (w.length - 4)) DOTGIT = true := ⟨h4, hci⟩
  have hsn : split_name w =
      (if w.take (w.length - 4) = [] ∨ w.take (w.length - 4) = ['.'] ∨
          w.take (w.length - 4) = ['.', '.'] then none
       else some (w.take (w.length - 4), w.drop (w.length - 4))) := by
    simp only [split_name, span, takeWhile_eq_self_of_all hw,
      dropWhile_eq_nil_of_all hw]
    rw [if_pos hcond]
  by_cases hbad : w.take (w.length - 4) = [] ∨ w.take (w.length - 4) = ['.'] ∨
      w.take (w.length - 4) = ['.', '.']
  · left
    rw [hsn, if_pos hbad]
  · right
    rw [hsn, if_neg hbad]

lemma state_http_exact {h o stem : List Char} (hh : HostOk h) (ho : OrgOk o)
    (hrepos : o ≠ "repos".toList) (hn : NameOk stem) :
    state_http (h ++ '/' :: (o ++ '/' :: (stem ++ DOTGIT))) = some (h, o, stem) := by
  have hgall : (stem ++ DOTGIT).all is_name_char = true := by
    simp [List.all_append, hn.2.1, (by decide : DOTGIT.all is_name_char = true)]
  rw [state_http_front hh ho.2.1 hgall]
  have hsl : consume ('/' :: (o ++ '/' :: (stem ++ DOTGIT))) (Token.literal SLASH) =
      (some (), o ++ '/' :: (stem ++ DOTGIT)) := by
    simpa [SLASH] using consume_literal_self SLASH (o ++ '/' :: (stem ++ DOTGIT))
  simp only [consume_repos_of_ne ho.2.1 hrepos, hsl]
  rw [state_org_name_on_span h ho]
  simp only [split_name_exact hn]
  have hm1 : maybe_consume DOTGIT (Token.literal DOTGIT) = ([] : List Char) := by decide
  have hm2 : maybe_consume ([] : List Char) (Token.literal SLASH) = [] := by decide
  simp only [hm1, hm2]
  rfl

lemma state_http_nonexact {h o w : List Char} (hh : HostOk h) (ho : OrgOk o)
    (hw : w.all is_name_char = true) (h4 : 4 ≤ w.length)
    (hci : eqIgnoreAsciiCase (w.drop (w.length - 4)) DOTGIT = true)
    (hne : w.drop (w.length - 4) ≠ DOTGIT) :
    state_http (h ++ '/' :: (o ++ '/' :: w)) = none := by
  rw [state_http_front hh ho.2.1 hw]
  by_cases horepos : o = "repos".toList
  · subst horepos
    simp only [consume_repos_self]
    have hnos : ∀ c ∈ w, c ≠ '/' := pred_char_ne hw (by decide)
    simp [state_org_name, get_org_name, split_org_name_no_slash hnos]
  · have hsl : consume ('/' :: (o ++ '/' :: w)) (Token.literal SLASH) =
        (some (), o ++ '/' :: w) := by
      simpa [SLASH] using consume_literal_self SLASH (o ++ '/' :: w)
    simp only [consume_repos_of_ne ho.2.1 horepos, hsl]
    rw [state_org_name_on_span h ho]
    rcases split_name_ci_cases hw h4 hci with hsn | hsn
    · simp only [hsn]
    · simp only [hsn]
      have hd₁len : (w.drop (w.length - 4)).length = 4 := by
        rw [List.length_drop]
        omega
      have hm1 : maybe_consume (w.drop (w.length - 4)) (Token.literal DOTGIT) =
          w.drop (w.length - 4) := by
        by_cases hp : DOTGIT.isPrefixOf (w.drop (w.length - 4)) = true
        · obtain ⟨t, ht⟩ := List.isPrefixOf_iff_prefix.mp hp
          have hlen : DOTGIT.length + t.length = 4 := by
            have hl := congrArg List.length ht
            simp only [List.length_append] at hl
            rw [hd₁len] at hl
            exact hl
          have ht0 : t = [] := List.length_eq_zero.mp (by
            have hdl : DOTGIT.length = 4 := by decide
            omega)
          rw [ht0, List.append_nil] at ht
          exact absurd ht.symm hne
        · simp [maybe_consume, consume, hp]
      have hm2 : maybe_consume (w.drop (w.length - 4)) (Token.literal SLASH) =
          w.drop (w.length - 4) := by
        by_cases hp : SLASH.isPrefixOf (w.drop (w.length - 4)) = true
        · obtain ⟨t, ht⟩ := List.isPrefixOf_iff_prefix.mp hp
          have ht' : '/' :: t = w.drop (w.length - 4) := by simpa [SLASH] using ht
          rw [← ht'] at hci
          have hmap : (('/' :: t).map toAsciiLower) = DOTGIT.map toAsciiLower := by
            simpa [eqIgnoreAsciiCase] using hci
          have hdg : DOTGIT.map toAsciiLower = '.' :: ("git".toList.map toAsciiLower) := by
            decide
          rw [hdg, List.map_cons, List.cons.injEq] at hmap
          exact absurd hmap.1 (by decide)
        · simp [maybe_consume, consume, hp]
      rw [hm1, hm2]
      have hd₁ne : w.drop (w.length - 4) ≠ [] := by
        intro heq
        rw [heq] at hd₁len
        simp at hd₁len
      unfold state_end
      rw [if_neg hd₁ne]

/-! ## Claim theorems -/

/-- C1 counterexample: the claim says a name ending in ".GIT" keeps that
suffix as part of the returned name.  In fact `split_name` excludes even a
case-insensitively matching ".git" from the name (returning "repo", not
"repo.GIT"), and the whole URL is then rejected because the leftover ".GIT"
is never consumed. -/
theorem c1_counterexample :
    split_name ("repo.GIT".toList) = some ("repo".toList, ".GIT".toList) ∧
    split_name ("repo.GIT".toList) ≠ some ("repo.GIT".toList, []) ∧
    parse_git_url ("https://github.com/org/repo.GIT".toList) = none := by
  decide

/-- C1 (amended): a trailing ".git" is stripped from the name only when it is
case-sensitively exact.  Universally: for every valid host, org (other than
the REST-API marker "repos") and valid name stem, the HTTPS URL whose name
part is `stem.git` parses with exactly that suffix stripped; and for every
name part that ends in a case-insensitive but not case-sensitive ".git"
variant (such as ".GIT" or ".Git"), the whole URL is rejected — `split_name`
excludes even the non-exact match from the name but leaves it unconsumed, and
only an exact ".git" literal is consumed afterwards, so the variant is
neither stripped-and-accepted nor retained.  A returned name can still end in
".GIT" when the input carries a further exact ".git" after it, as the
"repo.GIT.git" conjunct shows. -/
theorem c1_amended_dotgit_case (h o stem w : List Char)
    (hh : HostOk h) (ho : OrgOk o) :
    (o ≠ "repos".toList → NameOk stem →
      parse_git_url ("https://".toList ++ (h ++ '/' :: (o ++ '/' :: (stem ++ DOTGIT)))) =
        some (h, o, stem)) ∧
    (w.all is_name_char = true → 4 ≤ w.length →
      eqIgnoreAsciiCase (w.drop (w.length - 4)) DOTGIT = true →
      w.drop (w.length - 4) ≠ DOTGIT →
      parse_git_url ("https://".toList ++ (h ++ '/' :: (o ++ '/' :: w))) = none) ∧
    parse_git_url ("https://github.com/org/repo.git".toList) =
      some ("github.com".toList, "org".toList, "repo".toList) ∧
    parse_git_url ("https://github.com/org/repo.GIT".toList) = none ∧
    parse_git_url ("https://github.com/org/repo.Git".toList) = none ∧
    parse_git_url ("git@github.com:org/repo.GIT".toList) = none ∧
    parse_git_url ("https://github.com/org/repo.GIT.git".toList) =
      some ("github.com".toList, "org".toList, "repo.GIT".toList) ∧
    split_name ("repo.GIT".toList) = some ("repo".toList, ".GIT".toList) := by
  refine ⟨fun hrepos hn => ?_, fun hwn h4 hci hne => ?_, by decide, by decide,
    by decide, by decide, by decide, by decide⟩
  · rw [parse_https, state_http_exact hh ho hrepos hn]
  · rw [parse_https, state_http_nonexact hh ho hwn h4 hci hne]

/-- C1 witness: the amended claim applied at a concrete exact-suffix URL
(stripping) and a concrete ".GIT"-suffix URL (rejection). -/
theorem c1_amended_dotgit_case_witness :
    parse_git_url ("https://".toList ++ ("github.com".toList ++ '/' ::
        ("org".toList ++ '/' :: ("repo".toList ++ DOTGIT)))) =
      some ("github.com".toList, "org".toList, "repo".toList) ∧
    parse_git_url ("https://".toList ++ ("github.com".toList ++ '/' ::
        ("org".toList ++ '/' :: "repo.GIT".toList))) = none :=
  ⟨(c1_amended_dotgit_case ("github.com".toList) ("org".toList) ("repo".toList)
      ("x".toList) (by decide) (by decide)).1 (by decide) (by decide),
   (c1_amended_dotgit_case ("github.com".toList) ("org".toList) ("x".toList)
      ("repo.GIT".toList) (by decide) (by decide)).2.1 (by decide) (by decide)
      (by decide) (by decide)⟩

/-- C3 counterexample: the round trip through the web-URL form fails for an
accepted URL whose organization is "repos" (the rebuilt URL's "/repos/" is
taken as the REST-API marker) and for one whose name ends in ".git" (the
suffix is stripped a second time on reparse). -/
theorem c3_counterexample :
    parse_git_url ("git@github.com:repos/name".toList) =
      some ("github.com".toList, "repos".toList, "name".toList) ∧
    parse_git_url
        (GitRepository.web_url ⟨"github.com".toList, "repos".toList, "name".toList⟩) =
      none ∧
    parse_git_url ("https://github.com/org/a.git.git".toList) =
      some ("github.com".toList, "org".toList, "a.git".toList) ∧
    parse_git_url
        (GitRepository.web_url ⟨"github.com".toList, "org".toList, "a.git".toList⟩) =
      some ("github.com".toList, "org".toList, "a".toList) := by
  decide

/-- C3 (amended): for every URL accepted as (host, org, name) in which the
org is not the literal "repos" and the name does not end in a
case-insensitive ".git", parsing the rebuilt web URL
`https://{host}/{org}/{name}` returns the same triple. -/
theorem c3_amended_roundtrip (s h o n : List Char)
    (hp : parse_git_url s = some (h, o, n))
    (hrepos : o ≠ "repos".toList)
    (hgit : ¬(4 ≤ n.length ∧ eqIgnoreAsciiCase (n.drop (n.length - 4)) DOTGIT = true)) :
    parse_git_url (GitRepository.web_url ⟨h, o, n⟩) = some (h, o, n) := by
  obtain ⟨hh, ho, hn⟩ := parse_git_url_inv hp
  have hw : GitRepository.web_url ⟨h, o, n⟩ =
      "https://".toList ++ (h ++ '/' :: (o ++ '/' :: n)) := by
    simp [GitRepository.web_url]
  rw [hw, parse_https, state_http_rebuilt hh ho hn hrepos hgit]

/-- C3 witness: the round trip at a concrete accepted SSH-style URL. -/
theorem c3_amended_roundtrip_witness :
    parse_git_url
        (GitRepository.web_url ⟨"github.com".toList, "org".toList, "repo".toList⟩) =
      some ("github.com".toList, "org".toList, "repo".toList) :=
  c3_amended_roundtrip ("git@github.com:org/repo.git".toList) _ _ _
    (by decide) (by decide) (by decide)

/-- C7: a failed `consume` leaves the remaining input unchanged, and
`consume_seq` is atomic — on failure the cursor is exactly the one from
before the attempt, and on success every token was consumed in order. -/
theorem c7_consume_atomicity (data : List Char) (t : Token) (ts : List Token) :
    ((consume data t).1 = none → (consume data t).2 = data) ∧
    ((consume_seq data ts).1 = none → (consume_seq data ts).2 = data) ∧
    ((consume_seq data ts).1 = some () →
      consume_all data ts = some (consume_seq data ts).2) :=
  ⟨fun h => consume_none_frame h,
   fun h => consume_seq_go_none h,
   fun h => consume_seq_go_some h⟩

/-- C7 witness: concrete failing consume, failing sequence, and successful
sequence. -/
theorem c7_consume_atomicity_witness :
    (consume ("abc".toList) (Token.literal ("x".toList))).2 = "abc".toList ∧
    (consume_seq ("abc".toList)
        [Token.literal ("a".toList), Token.literal ("x".toList)]).2 = "abc".toList ∧
    consume_all ("ab".toList) [Token.literal ("a".toList), Token.literal ("b".toList)] =
      some ((consume_seq ("ab".toList)
        [Token.literal ("a".toList), Token.literal ("b".toList)]).2) :=
  ⟨(c7_consume_atomicity ("abc".toList) (Token.literal ("x".toList)) []).1 (by decide),
   (c7_consume_atomicity ("abc".toList) (Token.literal ("x".toList))
      [Token.literal ("a".toList), Token.literal ("x".toList)]).2.1 (by decide),
   (c7_consume_atomicity ("ab".toList) (Token.literal ("x".toList))
      [Token.literal ("a".toList), Token.literal ("b".toList)]).2.2 (by decide)⟩

/-- C8: the parser returns None (never an error) on the listed inputs; the
terminal End state succeeds only when the cursor is fully exhausted and both
a host and an org/name pair were captured (so an input with trailing
unconsumed characters, like "https://github.com/org/repo/x", is rejected);
and a successful parse always carries a non-empty host, org and name. -/
theorem c8_rejections :
    parse_git_url ("not-a-url".toList) = none ∧
    parse_git_url ("https://".toList) = none ∧
    parse_git_url ("https://example.com".toList) = none ∧
    parse_git_url ([] : List Char) = none ∧
    parse_git_url ("https://github.com/org/repo/x".toList) = none ∧
    (∀ (d : List Char) (host : Option (List Char))
        (result : Option (List Char × List Char)) (h o n : List Char),
      state_end d host result = some (h, o, n) →
        d = [] ∧ host = some h ∧ result = some (o, n)) ∧
    (∀ s h o n : List Char, parse_git_url s = some (h, o, n) →
      h ≠ [] ∧ o ≠ [] ∧ n ≠ []) := by
  refine ⟨by decide, by decide, by decide, by decide, by decide,
    fun d host result h o n he => state_end_inv he, fun s h o n hp => ?_⟩
  obtain ⟨⟨hv, -⟩, ⟨hone, -⟩, ⟨hnne, -⟩⟩ := parse_git_url_inv hp
  refine ⟨fun he => ?_, hone, hnne⟩
  subst he
  exact absurd hv (by decide)

/-- C8 witness: the End-state conclusion at a concrete exhausted cursor, and
the captured-parts conclusion at a concrete accepted URL. -/
theorem c8_rejections_witness :
    (("github.com".toList ≠ ([] : List Char)) ∧ "a".toList ≠ ([] : List Char) ∧
      "b".toList ≠ ([] : List Char)) ∧
    (([] : List Char) = [] ∧
      (some ("h.com".toList) : Option (List Char)) = some ("h.com".toList) ∧
      (some ("a".toList, "b".toList) : Option (List Char × List Char)) =
        some ("a".toList, "b".toList)) :=
  ⟨c8_rejections.2.2.2.2.2.2 ("https://github.com/a/b".toList)
      ("github.com".toList) ("a".toList) ("b".toList) (by decide),
   c8_rejections.2.2.2.2.2.1 ([] : List Char) (some ("h.com".toList))
      (some ("a".toList, "b".toList)) ("h.com".toList) ("a".toList) ("b".toList)
      (by decide)⟩

/-- C9: the hostname validator accepts exactly the non-empty strings of at
most 253 characters whose dot-separated labels are 1 to 63 characters of
ASCII alphanumerics and hyphens, neither starting nor ending with a hyphen;
including the concrete examples from the spec. -/
theorem c9_hostname_validator :
    (∀ s : List Char, is_valid_hostname s = true ↔
      (s ≠ [] ∧ s.length ≤ 253 ∧
        ∀ label ∈ splitOnChar '.' s,
          label ≠ [] ∧ label.length ≤ 63 ∧ label.head? ≠ some '-' ∧
          label.getLast? ≠ some '-' ∧
          ∀ c ∈ label, isAsciiAlphanumeric c = true ∨ c = '-')) ∧
    is_valid_hostname ("github.com".toList) = true ∧
    is_valid_hostname ("localhost".toList) = true ∧
    is_valid_hostname ("example-host.com".toList) = true ∧
    is_valid_hostname ([] : List Char) = false ∧
    is_valid_hostname ("-invalid.com".toList) = false ∧
    is_valid_hostname ("invalid-.com".toList) = false ∧
    is_valid_hostname (List.replicate 254 'a') = false := by
  refine ⟨fun s => ?_, by decide, by decide, by decide, by decide, by decide,
    by decide, ?_⟩
  · unfold is_valid_hostname
    split
    · rename_i hcond
      rcases hcond with rfl | hlen
      · simp
      · have hgt : ¬s.length ≤ 253 := Nat.not_le.mpr hlen
        simp [hgt]
    · rename_i hcond
      push_neg at hcond
      obtain ⟨hne, hlen⟩ := hcond
      rw [List.all_eq_true]
      constructor
      · intro hall
        exact ⟨hne, hlen, fun l hl => (label_ok_iff l).mp (hall l hl)⟩
      · intro hprop l hl
        exact (label_ok_iff l).mpr (hprop.2.2 l hl)
  · unfold is_valid_hostname
    rw [if_pos (Or.inr (by norm_num [List.length_replicate]))]

/-- C9 witness: the characterization applied at "github.com". -/
theorem c9_hostname_validator_witness :
    is_valid_hostname ("github.com".toList) = true :=
  (c9_hostname_validator.1 ("github.com".toList)).mpr (by decide)

/-- C10: the remote lookup maps a command failure to NoSuchRemote exactly
when the exit code is 2; any other failing status is passed through as
CommandFailed with that same status, and successes pass through. -/
theorem c10_exit_code_two (remoteName : List Char) (st : Option Int) :
    (GitRepository.remote remoteName (.error (.CommandFailed st)) =
        .error (.NoSuchRemote remoteName) ↔ st = some 2) ∧
    (st ≠ some 2 →
      GitRepository.remote remoteName (.error (.CommandFailed st)) =
        .error (.CommandFailed st)) ∧
    (∀ u : List Char, GitRepository.remote remoteName (.ok u) = .ok u) := by
  refine ⟨⟨fun h => ?_, fun h => by subst h; simp [GitRepository.remote]⟩,
    fun hne => by simp [GitRepository.remote, hne], fun u => rfl⟩
  by_contra hne
  simp [GitRepository.remote, hne] at h

/-- C10 witness: exit code 128 stays CommandFailed, exit code 2 becomes
NoSuchRemote. -/
theorem c10_exit_code_two_witness :
    GitRepository.remote ("origin".toList) (.error (.CommandFailed (some 128))) =
      .error (.CommandFailed (some 128)) ∧
    GitRepository.remote ("origin".toList) (.error (.CommandFailed (some 2))) =
      .error (.NoSuchRemote ("origin".toList)) :=
  ⟨(c10_exit_code_two ("origin".toList) (some 128)).2.1 (by decide),
   (c10_exit_code_two ("origin".toList) (some 2)).1.mpr rfl⟩

/-- C4 counterexample: in a non-Git directory with an empty argument list the
resolver returns the empty string, not the working directory, because only a
join equal to "." is mapped to the working directory. -/
theorem c4_counterexample :
    GitRepository.url env_no_git ("/work".toList) [] = .ok [] ∧
    GitRepository.url env_no_git ("/work".toList) [] ≠ .ok ("/work".toList) := by
  decide

/-- C4 (amended): outside a Git repository the result is the arguments
joined with single spaces, with the working directory substituted only when
that join equals "." — an empty argument list therefore resolves to the
empty string. -/
theorem c4_amended_join (env : GitEnv) (current_dir : List Char)
    (paths : List (List Char)) (hg : env.is_git = false) :
    GitRepository.url env current_dir paths =
      .ok (if List.intercalate (" ".toList) paths = ".".toList then current_dir
           else List.intercalate (" ".toList) paths) := by
  simp [GitRepository.url, hg]

/-- C4 witness: the non-Git join at the spec's concrete scenario. -/
theorem c4_amended_join_witness :
    GitRepository.url env_no_git ("/work".toList) [("foo".toList), ("bar".toList)] =
      .ok ("foo bar".toList) := by
  rw [c4_amended_join env_no_git ("/work".toList) [("foo".toList), ("bar".toList)]
    (by decide)]
  decide

/-- C2 counterexample: the commit message "Update #abc and #42" contains the
pull-request shaped occurrence "#42", so the claim predicts the
pull-request URL; the code inspects only the first "#", finds no digits
after it, and produces the commit URL instead. -/
theorem c2_counterexample :
    spec_pr_reference ("Update #abc and #42".toList) = some ("42".toList) ∧
    GitRepository.url env_c2 ("/work".toList) [("abc1234".toList)] =
      .ok ("https://github.com/org/repo/commit/abc1234".toList) ∧
    GitRepository.url env_c2 ("/work".toList) [("abc1234".toList)] ≠
      .ok ("https://github.com/org/repo/pull/42".toList) := by
  decide

/-- C2 (amended): for a commit-hash argument the resolver scans only the
first "#" character of the commit message: the result is the pull-request
URL for the digit run immediately following that first "#" when it is
non-empty, and otherwise the commit URL — even when a later "#digits"
occurrence exists in the message. -/
theorem c2_amended_first_hash_only (env : GitEnv) (cd arg msg : List Char)
    (r : GitRepository) (hg : env.is_git = true)
    (hr : GitRepository.from_path env = .ok r)
    (hc : is_valid_commit_hash arg = true)
    (hm : env.log_message arg = .ok msg) :
    (GitRepository.url env cd [arg] =
      .ok (match pr_scan msg with
           | some pr_number => r.pr_url pr_number
           | none => r.commit_url arg)) ∧
    ((∀ x ∈ msg, x ≠ '#') → pr_scan msg = none) ∧
    (∀ pre rest, msg = pre ++ '#' :: rest → (∀ x ∈ pre, x ≠ '#') →
      pr_scan msg = (if rest.takeWhile isAsciiDigit = [] then none
                     else some (rest.takeWhile isAsciiDigit))) := by
  refine ⟨?_, fun hmsg => pr_scan_of_no_hash hmsg,
    fun pre rest hmsg hpre => by rw [hmsg]; exact pr_scan_of_first_hash hpre⟩
  simp only [GitRepository.url, hg, Bool.not_true, Bool.false_eq_true, if_false, hr,
    hc, Bool.true_or, if_true, pr_for_commit, hm]
  cases pr_scan msg <;> rfl

/-- C2 witness: the amended behaviour evaluated in the concrete environment
whose first "#" is not followed by digits. -/
theorem c2_amended_first_hash_only_witness :
    GitRepository.url env_c2 ("/work".toList) [("abc1234".toList)] =
      .ok (match pr_scan ("Update #abc and #42".toList) with
           | some pr_number =>
             GitRepository.pr_url
               ⟨"github.com".toList, "org".toList, "repo".toList⟩ pr_number
           | none =>
             GitRepository.commit_url
               ⟨"github.com".toList, "org".toList, "repo".toList⟩
               ("abc1234".toList)) :=
  (c2_amended_first_hash_only env_c2 ("/work".toList) ("abc1234".toList)
    ("Update #abc and #42".toList)
    ⟨"github.com".toList, "org".toList, "repo".toList⟩
    (by decide) (by decide) (by decide) rfl).1

/-- C5: a 7-to-40 character all-hex argument resolves through the
commit-hash path; a non-empty all-digit argument yields the pull-request
URL only when it is not a commit-hash candidate; and every all-digit string
of length 7 to 40 is a commit-hash candidate, so the hash interpretation
takes priority. -/
theorem c5_commit_priority (env : GitEnv) (cd arg : List Char)
    (r : GitRepository) (hg : env.is_git = true)
    (hr : GitRepository.from_path env = .ok r) :
    (is_valid_commit_hash arg = true →
      GitRepository.url env cd [arg] =
        .ok (match pr_for_commit env arg with
             | some pr_number => r.pr_url pr_number
             | none => r.commit_url arg)) ∧
    (is_valid_commit_hash arg = false → is_pr_number arg = true →
      GitRepository.url env cd [arg] = .ok (r.pr_url arg)) ∧
    (arg.all isAsciiDigit = true → 7 ≤ arg.length → arg.length ≤ 40 →
      is_valid_commit_hash arg = true) := by
  refine ⟨fun hc => ?_, fun hc hpr => ?_, fun hd h7 h40 => ?_⟩
  · simp only [GitRepository.url, hg, Bool.not_true, Bool.false_eq_true, if_false,
      hr, hc, Bool.true_or, if_true]
    cases pr_for_commit env arg <;> rfl
  · simp only [GitRepository.url, hg, Bool.not_true, Bool.false_eq_true, if_false,
      hr, hc, hpr, Bool.false_or, if_true, Bool.false_eq_true]
  · have hhex : arg.all isAsciiHexDigit = true := by
      rw [List.all_eq_true] at hd ⊢
      intro c hcm
      have := hd c hcm
      simp [isAsciiHexDigit, this]
    simp [is_valid_commit_hash, h7, h40, hhex]

/-- C5 witness: the all-digit seven-character argument "1234567" is treated
as a commit hash, not a PR number. -/
theorem c5_commit_priority_witness :
    GitRepository.url env_c5 ("/work".toList) [("1234567".toList)] =
      .ok (match pr_for_commit env_c5 ("1234567".toList) with
           | some pr_number =>
             GitRepository.pr_url
               ⟨"github.com".toList, "acme".toList, "widgets".toList⟩ pr_number
           | none =>
             GitRepository.commit_url
               ⟨"github.com".toList, "acme".toList, "widgets".toList⟩
               ("1234567".toList)) ∧
    is_valid_commit_hash ("1234567".toList) = true :=
  ⟨(c5_commit_priority env_c5 ("/work".toList) ("1234567".toList)
      ⟨"github.com".toList, "acme".toList, "widgets".toList⟩
      (by decide) (by decide)).1 (by decide),
   (c5_commit_priority env_c5 ("/work".toList) ("1234567".toList)
      ⟨"github.com".toList, "acme".toList, "widgets".toList⟩
      (by decide) (by decide)).2.2 (by decide) (by decide) (by decide)⟩

/-- C6: with no arguments the result is the branch-aware web URL: the plain
web URL for branches develop, main and master (and for a failed branch
query, which defaults to "main"), and otherwise the web URL with
"/tree/{branch}" appended. -/
theorem c6_branch_aware (env : GitEnv) (cd : List Char) (r : GitRepository)
    (hg : env.is_git = true) (hr : GitRepository.from_path env = .ok r) :
    GitRepository.url env cd [] = .ok (r.http_url env) ∧
    (∀ e, env.head_branch = .error e → r.http_url env = r.web_url) ∧
    (∀ b, env.head_branch = .ok b →
      r.http_url env =
        (if b = "develop".toList ∨ b = "main".toList ∨ b = "master".toList
         then r.web_url
         else r.web_url ++ "/tree/".toList ++ b)) := by
  refine ⟨?_, fun e he => ?_, fun b hb => ?_⟩
  · simp only [GitRepository.url, hg, Bool.not_true, Bool.false_eq_true, if_false, hr]
  · simp [GitRepository.http_url, current_branch, he]
  · simp only [GitRepository.http_url, current_branch, hb]

/-- C6 witness: a failed branch query produces the plain web URL. -/
theorem c6_branch_aware_witness :
    GitRepository.url env_c6 ("/work".toList) [] =
      .ok (GitRepository.http_url
        ⟨"github.com".toList, "acme".toList, "widgets".toList⟩ env_c6) ∧
    GitRepository.http_url
        ⟨"github.com".toList, "acme".toList, "widgets".toList⟩ env_c6 =
      GitRepository.web_url ⟨"github.com".toList, "acme".toList, "widgets".toList⟩ :=
  ⟨(c6_branch_aware env_c6 ("/work".toList)
      ⟨"github.com".toList, "acme".toList, "widgets".toList⟩
      (by decide) (by decide)).1,
   (c6_branch_aware env_c6 ("/work".toList)
      ⟨"github.com".toList, "acme".toList, "widgets".toList⟩
      (by decide) (by decide)).2.1 (RepositoryError.CommandFailed (some 1)) rfl⟩
